import Mathlib

/-!
Verification of the CryptoLW authenticated-cipher contract (ACORN-128 engine)
against the behaviour exercised by the Python test driver
(libraries/CryptoLW/examples/Python/TestAcorn.py).

The C++ engine sources (Acorn128.cpp, Cipher.cpp, the Python wrapper) are not
part of the provided sources, so the engine and the cipher state machine are
modelled from the specification: the bit-level ACORN-128 construction of
section 4.2 (293-bit register, six feedback sub-registers, key/nonce diffusion,
domain-separation bits, 128-bit tag squeeze) and the lifecycle contract of
section 4.1 (Fresh, KeyAndNonceSet, AbsorbingAAD, ProcessingPayload, Finalized,
with errors InvalidLength, InvalidState, TagMismatch).  The model is validated
below against the known-answer vector that the test driver checks.

Bytes are lists of naturals below 256; bits are naturals that are 0 or 1,
ordered least-significant first inside each byte.
-/

namespace CryptoLW

/-- Bytes of a buffer, each a natural number below 256. -/
abbrev Bytes := List Nat

/-- Force a natural number to literal form before continuing; identity on the
value, used to keep state accumulators strict during evaluation. -/
def forceN (n : Nat) (k : Nat → α) : α :=
  match n with
  | 0 => k 0
  | t + 1 => k (t + 1)

theorem forceN_eq (n : Nat) (k : Nat → α) : forceN n k = k n := by
  cases n <;> rfl

/-- Bit i of the register, as 0 or 1. -/
def getBit (s i : Nat) : Nat := (s >>> i) &&& 1

/-- Majority function on single bits. -/
def maj (x y z : Nat) : Nat := (x &&& y) ^^^ (x &&& z) ^^^ (y &&& z)

/-- Choice function on single bits. -/
def ch (x y z : Nat) : Nat := (x &&& y) ^^^ ((x ^^^ 1) &&& z)

/-- The eight bits of a byte, least significant first. -/
def byteToBits (b : Nat) : List Nat :=
  [b &&& 1, (b >>> 1) &&& 1, (b >>> 2) &&& 1, (b >>> 3) &&& 1,
   (b >>> 4) &&& 1, (b >>> 5) &&& 1, (b >>> 6) &&& 1, (b >>> 7) &&& 1]

/-- A byte string as a bit stream, each byte least-significant bit first. -/
def bytesToBits (l : Bytes) : List Nat := (l.map byteToBits).flatten

/-- Repack a bit stream into bytes, eight bits at a time, least significant
first; a trailing group of fewer than eight bits is dropped (never happens in
this development: all streams have length a multiple of eight). -/
def bitsToBytes : List Nat → Bytes
  | b0 :: b1 :: b2 :: b3 :: b4 :: b5 :: b6 :: b7 :: rest =>
    (b0 + 2 * b1 + 4 * b2 + 8 * b3 + 16 * b4 + 32 * b5 + 64 * b6 + 128 * b7)
      :: bitsToBytes rest
  | _ => []

/-- Modelled from the spec: the six linear-feedback updates of the 293-bit
ACORN register (section 4.2, register organized as six sub-registers whose
boundary bits are refreshed before each step), as in the ACORN-128 reference
the spec requires bit-exact compatibility with.  The state is a natural
number whose bit i is register bit i. -/
def update6 (s : Nat) : Nat :=
  let s := s ^^^ ((getBit s 235 ^^^ getBit s 230) <<< 289)
  let s := s ^^^ ((getBit s 196 ^^^ getBit s 193) <<< 230)
  let s := s ^^^ ((getBit s 160 ^^^ getBit s 154) <<< 193)
  let s := s ^^^ ((getBit s 111 ^^^ getBit s 107) <<< 154)
  let s := s ^^^ ((getBit s 66 ^^^ getBit s 61) <<< 107)
  let s := s ^^^ ((getBit s 23 ^^^ getBit s 0) <<< 61)
  s

/-- Modelled from the spec: the nonlinear keystream-bit extraction of
ACORN-128 (section 4.2, nonlinear Boolean combining function). -/
def ksg (s : Nat) : Nat :=
  getBit s 12 ^^^ getBit s 154 ^^^ maj (getBit s 235) (getBit s 61) (getBit s 193)
    ^^^ ch (getBit s 230) (getBit s 111) (getBit s 66)

/-- Modelled from the spec: the nonlinear feedback bit, with the two control
bits ca and cb selecting the phase-dependent contributions (section 4.2). -/
def fbk (s ca cb ks : Nat) : Nat :=
  getBit s 0 ^^^ (getBit s 107 ^^^ 1) ^^^ maj (getBit s 244) (getBit s 23) (getBit s 160)
    ^^^ (ca &&& getBit s 196) ^^^ (cb &&& ks)

/-- Modelled from the spec: one step of the ACORN-128 register.  It consumes
one input bit m and the control bits ca, cb, refreshes the sub-register
boundaries, shifts by one and injects the feedback (section 4.2). -/
def stepS (s m ca cb : Nat) : Nat :=
  let s1 := update6 s
  (s1 >>> 1) ^^^ ((fbk s1 ca cb (ksg s1) ^^^ m) <<< 292)

/-- The keystream bit emitted by the step taken from state s. -/
def stepKS (s : Nat) : Nat := ksg (update6 s)

/-- Absorb a bit stream into the register with fixed control bits. -/
def absorb (ca cb s : Nat) : List Nat → Nat
  | [] => s
  | b :: bs => forceN (stepS s b ca cb) (fun t => absorb ca cb t bs)

/-- Complement the first bit of a stream (the key-reinjection marker of the
ACORN-128 initialization). -/
def flipFirst : List Nat → List Nat
  | [] => []
  | b :: bs => (b ^^^ 1) :: bs

/-- Modelled from the spec: ACORN-128 initialization (section 4.2): starting
from the all-zero register, the 128 key bits and then the 128 nonce bits are
absorbed one per step, followed by 1536 further diffusion steps whose inputs
replay the key bits twelve times with the very first replayed bit
complemented; every initialization step runs with ca = cb = 1. -/
def initState (k n : Bytes) : Nat :=
  let kb := bytesToBits k
  let s := absorb 1 1 0 kb
  let s := absorb 1 1 s (bytesToBits n)
  absorb 1 1 s (flipFirst kb ++ (List.replicate 11 kb).flatten)

/-- Modelled from the spec: the associated-data boundary (section 4.2): a
single domain-separation 1 bit followed by 255 zero padding steps; ca is 1
for the first 128 of these steps and 0 for the rest, cb stays 1. -/
def padAD (s : Nat) : Nat :=
  absorb 0 1 (absorb 1 1 s (1 :: List.replicate 127 0)) (List.replicate 128 0)

/-- Modelled from the spec: the payload boundary (section 4.2): a single
domain-separation 1 bit followed by 255 zero padding steps; ca is 1 for the
first 128 steps and 0 for the rest, cb stays 0. -/
def padPL (s : Nat) : Nat :=
  absorb 0 0 (absorb 1 0 s (1 :: List.replicate 127 0)) (List.replicate 128 0)

/-- Modelled from the spec: payload encryption (section 4.2): each plaintext
bit is XORed with the keystream bit of its step to give the ciphertext bit,
and the plaintext bit is absorbed with ca = 1, cb = 0.  Returns the final
state and the ciphertext bits. -/
def encBits (s : Nat) : List Nat → Nat × List Nat
  | [] => (s, [])
  | p :: ps =>
    forceN (stepS s p 1 0) (fun t =>
      let r := encBits t ps
      (r.1, (p ^^^ stepKS s) :: r.2))

/-- Modelled from the spec: payload decryption (section 4.2): the keystream
bit of the step is XORed with the ciphertext bit to recover the plaintext
bit, which is then absorbed exactly as during encryption.  Returns the final
state and the plaintext bits. -/
def decBits (s : Nat) : List Nat → Nat × List Nat
  | [] => (s, [])
  | c :: cs =>
    let p := c ^^^ stepKS s
    forceN (stepS s p 1 0) (fun t =>
      let r := decBits t cs
      (r.1, p :: r.2))

/-- Collect n keystream bits, one per blank step with ca = cb = 1. -/
def squeeze (s : Nat) : Nat → List Nat
  | 0 => []
  | t + 1 => stepKS s :: forceN (stepS s 0 1 1) (fun u => squeeze u t)

/-- Modelled from the spec: finalization (section 4.2): 768 blank diffusion
steps with ca = cb = 1, the keystream bits of the last 128 of them forming
the 16-byte tag. -/
def tagOf (s : Nat) : Bytes :=
  bitsToBytes (squeeze (absorb 1 1 s (List.replicate 640 0)) 128)

/-- Modelled from the spec: the three error kinds of the cipher contract
(section 7). -/
inductive CipherError
  | InvalidLength
  | InvalidState
  | TagMismatch
deriving DecidableEq, Repr

/-- Modelled from the spec: the lifecycle phases of section 4.1.  Setup
covers Fresh and KeyAndNonceSet (key and nonce may arrive in either order),
AuthData is AbsorbingAAD, Payload is ProcessingPayload. -/
inductive Phase
  | Setup
  | AuthData
  | Payload
  | Finalized
deriving DecidableEq, Repr

/-- Modelled from the spec: a cipher session (section 3) for the ACORN-128
engine, named after the class the Python test driver instantiates.  It
holds the optional key and nonce, the lifecycle phase, the 293-bit engine
register and, once finalized, the tag. -/
structure Acorn128 where
  key? : Option Bytes
  iv? : Option Bytes
  phase : Phase
  st : Nat
  tag? : Option Bytes
deriving DecidableEq, Repr

instance [DecidableEq ε] [DecidableEq α] : DecidableEq (Except ε α) := fun x y =>
  match x, y with
  | .ok a, .ok b =>
    if h : a = b then .isTrue (by rw [h]) else .isFalse (by simp [h])
  | .error e, .error f =>
    if h : e = f then .isTrue (by rw [h]) else .isFalse (by simp [h])
  | .ok _, .error _ => .isFalse (by simp)
  | .error _, .ok _ => .isFalse (by simp)

namespace Acorn128

/-- The freshly constructed session. -/
def new : Acorn128 := ⟨none, none, .Setup, 0, none⟩

/-- Modelled from the spec: reset (clear in the test driver) always succeeds
and returns the session to Fresh, discarding everything but the algorithm
selector (sections 3 and 4.1). -/
def clear (_s : Acorn128) : Acorn128 := new

/-- Whether both key and nonce have been supplied since the last reset. -/
def ready (s : Acorn128) : Bool := s.key?.isSome && s.iv?.isSome

/-- The engine register determined by the supplied key and nonce, or the
idle register when one of them is still missing. -/
def deriveSt (k? n? : Option Bytes) : Nat :=
  match k?, n? with
  | some k, some n => initState k n
  | _, _ => 0

/-- Modelled from the spec: setKey (section 4.1): rejects any argument that
is not exactly 16 bytes with InvalidLength; rejects calls after data
processing has begun with InvalidState; otherwise records the key (last
write wins) and rederives the engine register once the nonce is known. -/
def setKey (s : Acorn128) (k : Bytes) : Except CipherError Unit × Acorn128 :=
  if k.length ≠ 16 then (.error .InvalidLength, s)
  else if s.phase ≠ .Setup then (.error .InvalidState, s)
  else (.ok (), { s with key? := some k, st := deriveSt (some k) s.iv? })

/-- Modelled from the spec: setNonce (setIV in the test driver), symmetric
to setKey (section 4.1). -/
def setIV (s : Acorn128) (n : Bytes) : Except CipherError Unit × Acorn128 :=
  if n.length ≠ 16 then (.error .InvalidLength, s)
  else if s.phase ≠ .Setup then (.error .InvalidState, s)
  else (.ok (), { s with iv? := some n, st := deriveSt s.key? (some n) })

/-- The register from which payload processing continues: the associated
data stream is closed by its padding exactly once, on the first payload
byte or at finalization (section 4.1). -/
def prePayload (s : Acorn128) : Nat :=
  if s.phase = .Payload then s.st else padAD s.st

/-- Modelled from the spec: absorbAssociatedData (addAuthData in the test
driver): accepts any length, may be called repeatedly, the bytes of the
calls being concatenated; InvalidState before key and nonce are both set or
once payload processing or finalization has begun (section 4.1). -/
def addAuthData (s : Acorn128) (a : Bytes) : Except CipherError Unit × Acorn128 :=
  if s.ready = false then (.error .InvalidState, s)
  else if s.phase = .Payload ∨ s.phase = .Finalized then (.error .InvalidState, s)
  else (.ok (), { s with phase := .AuthData, st := absorb 1 1 s.st (bytesToBits a) })

/-- Modelled from the spec: encryptChunk (encrypt in the test driver):
InvalidState before key and nonce are both set or after finalization;
otherwise closes the associated-data stream if this is the first payload
chunk and emits exactly one ciphertext byte per plaintext byte
(section 4.1). -/
def encrypt (s : Acorn128) (p : Bytes) : Except CipherError Bytes × Acorn128 :=
  if s.ready = false ∨ s.phase = .Finalized then (.error .InvalidState, s)
  else
    let r := encBits s.prePayload (bytesToBits p)
    (.ok (bitsToBytes r.2), { s with phase := .Payload, st := r.1 })

/-- Modelled from the spec: decryptChunk (decrypt in the test driver),
symmetric to encryptChunk (section 4.1). -/
def decrypt (s : Acorn128) (c : Bytes) : Except CipherError Bytes × Acorn128 :=
  if s.ready = false ∨ s.phase = .Finalized then (.error .InvalidState, s)
  else
    let r := decBits s.prePayload (bytesToBits c)
    (.ok (bitsToBytes r.2), { s with phase := .Payload, st := r.1 })

/-- Modelled from the spec: computeTag (section 4.1): finalizes the session,
closing the associated-data stream if no payload was processed, absorbing
the payload boundary and squeezing the 16-byte tag; calling it twice
without a reset is InvalidState. -/
def computeTag (s : Acorn128) : Except CipherError Bytes × Acorn128 :=
  if s.ready = false ∨ s.phase = .Finalized then (.error .InvalidState, s)
  else
    let t := tagOf (padPL s.prePayload)
    (.ok t, { s with phase := .Finalized, st := padPL s.prePayload, tag? := some t })

/-- Constant-time difference accumulator: the OR of the XORs of the byte
pairs, 0 exactly when the compared prefixes agree. -/
def ctDiff : Bytes → Bytes → Nat
  | [], _ => 0
  | _, [] => 0
  | a :: as, b :: bs => (a ^^^ b) ||| ctDiff as bs

/-- Number of byte comparisons the constant-time accumulator performs. -/
def ctCost : Bytes → Bytes → Nat
  | [], _ => 0
  | _, [] => 0
  | _ :: as, _ :: bs => 1 + ctCost as bs

/-- Modelled from the spec: verifyTag (checkTag in the test driver): rejects
candidates that are not 16 bytes with InvalidLength; on a session not yet
finalized it computes the tag itself from everything absorbed; the
comparison accumulates the XOR of all byte pairs with no early exit and
signals only TagMismatch on failure (sections 4.1 and the design notes). -/
def checkTag (s : Acorn128) (c : Bytes) : Except CipherError Unit × Acorn128 :=
  if c.length ≠ 16 then (.error .InvalidLength, s)
  else
    match s.tag? with
    | some t =>
      if ctDiff t c = 0 then (.ok (), s) else (.error .TagMismatch, s)
    | none =>
      match s.computeTag with
      | (.ok t, s') =>
        if ctDiff t c = 0 then (.ok (), s') else (.error .TagMismatch, s')
      | (.error e, s') => (.error e, s')

end Acorn128

/-- Absorb a list of associated-data chunks in order, stopping at the first
error, as a caller issuing several addAuthData calls would. -/
def addAuthChunks (s : Acorn128) : List Bytes → Except CipherError Unit × Acorn128
  | [] => (.ok (), s)
  | a :: as =>
    match s.addAuthData a with
    | (.ok _, s') => addAuthChunks s' as
    | (.error e, s') => (.error e, s')

/-- Encrypt a list of payload chunks in order, concatenating the emitted
ciphertext, stopping at the first error. -/
def encryptChunks (s : Acorn128) : List Bytes → Except CipherError Bytes × Acorn128
  | [] => (.ok [], s)
  | p :: ps =>
    match s.encrypt p with
    | (.ok c, s') =>
      match encryptChunks s' ps with
      | (.ok cs, s'') => (.ok (c ++ cs), s'')
      | (.error e, s'') => (.error e, s'')
    | (.error e, s') => (.error e, s')

/-- Decrypt a list of ciphertext chunks in order, concatenating the
recovered plaintext, stopping at the first error. -/
def decryptChunks (s : Acorn128) : List Bytes → Except CipherError Bytes × Acorn128
  | [] => (.ok [], s)
  | c :: cs =>
    match s.decrypt c with
    | (.ok p, s') =>
      match decryptChunks s' cs with
      | (.ok ps, s'') => (.ok (p ++ ps), s'')
      | (.error e, s'') => (.error e, s'')
    | (.error e, s') => (.error e, s')

/-- Start a session the way the test driver does: clear, setKey, setIV,
then absorb the associated-data chunks. -/
def startSession (k n : Bytes) (aCs : List Bytes) : Except CipherError Unit × Acorn128 :=
  match (Acorn128.new.clear).setKey k with
  | (.ok _, s) =>
    match s.setIV n with
    | (.ok _, s) => addAuthChunks s aCs
    | (.error e, s) => (.error e, s)
  | (.error e, s) => (.error e, s)

/-- A whole encryption operation: start a session, encrypt the payload
chunks, finalize; returns the ciphertext and the tag. -/
def runEncrypt (k n : Bytes) (aCs pCs : List Bytes) : Except CipherError (Bytes × Bytes) :=
  match startSession k n aCs with
  | (.ok _, s) =>
    match encryptChunks s pCs with
    | (.ok c, s) =>
      match s.computeTag with
      | (.ok t, _) => .ok (c, t)
      | (.error e, _) => .error e
    | (.error e, _) => .error e
  | (.error e, _) => .error e

/-- A whole decryption operation: start a session, decrypt the ciphertext
chunks, finalize; returns the plaintext and the tag. -/
def runDecrypt (k n : Bytes) (aCs cCs : List Bytes) : Except CipherError (Bytes × Bytes) :=
  match startSession k n aCs with
  | (.ok _, s) =>
    match decryptChunks s cCs with
    | (.ok p, s) =>
      match s.computeTag with
      | (.ok t, _) => .ok (p, t)
      | (.error e, _) => .error e
    | (.error e, _) => .error e
  | (.error e, _) => .error e

/-- Decrypt and then verify a candidate tag, exactly as the test driver
does (decrypt followed directly by checkTag, with no computeTag call). -/
def runDecryptCheck (k n : Bytes) (aCs cCs : List Bytes) (cand : Bytes) :
    Except CipherError Unit :=
  match startSession k n aCs with
  | (.ok _, s) =>
    match decryptChunks s cCs with
    | (.ok _, s) => (s.checkTag cand).1
    | (.error e, _) => .error e
  | (.error e, _) => .error e

/-- The tag of an encryption operation, when it succeeds. -/
def runTag (k n : Bytes) (aCs pCs : List Bytes) : Option Bytes :=
  match runEncrypt k n aCs pCs with
  | .ok r => some r.2
  | .error _ => none

/-- The scenario of the test driver in which setKey is called twice: clear,
setKey with k1, setKey again with k2, setIV, associated data, payload, then
verification of a candidate tag. -/
def runTwiceKeyedCheck (k1 k2 n : Bytes) (aCs pCs : List Bytes) (cand : Bytes) :
    Except CipherError Unit :=
  match (Acorn128.new.clear).setKey k1 with
  | (.ok _, s) =>
    match s.setKey k2 with
    | (.ok _, s) =>
      match s.setIV n with
      | (.ok _, s) =>
        match addAuthChunks s aCs with
        | (.ok _, s) =>
          match encryptChunks s pCs with
          | (.ok _, s) => (s.checkTag cand).1
          | (.error e, _) => .error e
        | (.error e, _) => .error e
      | (.error e, _) => .error e
    | (.error e, _) => .error e
  | (.error e, _) => .error e

/-- The known-answer header of the test driver, 0102030405060708. -/
def katHeader : Bytes := [0x01, 0x02, 0x03, 0x04, 0x05, 0x06, 0x07, 0x08]

/-- The known-answer key of the test driver. -/
def katKey : Bytes :=
  [0x23, 0x39, 0x52, 0xDE, 0xE4, 0xD5, 0xED, 0x5F,
   0x9B, 0x9C, 0x6D, 0x6F, 0xF8, 0x0F, 0xF4, 0x78]

/-- The known-answer nonce of the test driver. -/
def katIV : Bytes :=
  [0x2D, 0x2B, 0x10, 0x31, 0x6A, 0xBE, 0x77, 0x66,
   0xAA, 0xBA, 0xDF, 0xEF, 0xB8, 0xE1, 0x39, 0xEA]

/-- The 24-byte known-answer ciphertext buffer the test driver decrypts. -/
def katCiphertext : Bytes :=
  [0x13, 0x6A, 0x14, 0xEC, 0x1F, 0x53, 0xE0, 0xC7,
   0xCB, 0x19, 0xAA, 0xDC, 0x38, 0xE7, 0x0D, 0x27,
   0x47, 0x74, 0xE3, 0xCA, 0xC1, 0x47, 0x22, 0x3E]

/-- The 16-byte prefix of the known-answer ciphertext, which is what the
specification text lists as the ciphertext of the vector. -/
def katCiphertext16 : Bytes := katCiphertext.take 16

/-- The known-answer tag of the test driver. -/
def katTag : Bytes :=
  [0x3E, 0x67, 0xF1, 0x0B, 0x7F, 0xD6, 0x8B, 0xAA,
   0x82, 0x06, 0xC6, 0x2B, 0xD0, 0x02, 0x6B, 0x1B]

/-- The plaintext recovered from the 24-byte known-answer ciphertext. -/
def katPlaintext : Bytes :=
  [0x0A, 0x0B, 0x0C, 0x0D, 0x0E, 0x0F, 0x0A, 0x0B,
   0x01, 0x02, 0x03, 0x04, 0x05, 0x06, 0x07, 0x08,
   0x1A, 0x1B, 0x1C, 0x1D, 0x1E, 0x1F, 0x20, 0x21]

/-! Engine lemmas. -/

theorem absorb_cons (ca cb s b : Nat) (bs : List Nat) :
    absorb ca cb s (b :: bs) = absorb ca cb (stepS s b ca cb) bs := by
  simp [absorb, forceN_eq]

theorem absorb_append (ca cb : Nat) (x y : List Nat) (s : Nat) :
    absorb ca cb s (x ++ y) = absorb ca cb (absorb ca cb s x) y := by
  induction x generalizing s with
  | nil => simp [absorb]
  | cons b bs ih => simp [absorb_cons, ih]

theorem encBits_cons (s p : Nat) (ps : List Nat) :
    encBits s (p :: ps) =
      ((encBits (stepS s p 1 0) ps).1, (p ^^^ stepKS s) :: (encBits (stepS s p 1 0) ps).2) := by
  simp [encBits, forceN_eq]

theorem decBits_cons (s c : Nat) (cs : List Nat) :
    decBits s (c :: cs) =
      ((decBits (stepS s (c ^^^ stepKS s) 1 0) cs).1,
        (c ^^^ stepKS s) :: (decBits (stepS s (c ^^^ stepKS s) 1 0) cs).2) := by
  simp [decBits, forceN_eq]

theorem encBits_append (x y : List Nat) (s : Nat) :
    encBits s (x ++ y) =
      ((encBits (encBits s x).1 y).1, (encBits s x).2 ++ (encBits (encBits s x).1 y).2) := by
  induction x generalizing s with
  | nil => simp [encBits]
  | cons p ps ih => simp [encBits_cons, ih]

theorem encBits_length (s : Nat) (ps : List Nat) : (encBits s ps).2.length = ps.length := by
  induction ps generalizing s with
  | nil => simp [encBits]
  | cons p ps ih => simp [encBits_cons, ih]

/-- Decrypting the bits produced by encryption recovers the plaintext bits and
runs the register through exactly the same states. -/
theorem decBits_encBits (s : Nat) (ps : List Nat) :
    decBits s (encBits s ps).2 = ((encBits s ps).1, ps) := by
  induction ps generalizing s with
  | nil => simp [encBits, decBits]
  | cons p ps ih =>
    simp only [encBits_cons, decBits_cons, Nat.xor_cancel_right]
    simp [ih]

theorem squeeze_cons (s : Nat) (t : Nat) :
    squeeze s (t + 1) = stepKS s :: squeeze (stepS s 0 1 1) t := by
  simp [squeeze, forceN_eq]

theorem squeeze_length (s n : Nat) : (squeeze s n).length = n := by
  induction n generalizing s with
  | zero => simp [squeeze]
  | succ t ih => simp [squeeze_cons, ih]

/-! Byte and bit stream conversions. -/

theorem bytesToBits_cons (b : Nat) (bs : Bytes) :
    bytesToBits (b :: bs) = byteToBits b ++ bytesToBits bs := by
  simp [bytesToBits]

theorem bytesToBits_append (a b : Bytes) :
    bytesToBits (a ++ b) = bytesToBits a ++ bytesToBits b := by
  simp [bytesToBits]

theorem bytesToBits_length (l : Bytes) : (bytesToBits l).length = 8 * l.length := by
  induction l with
  | nil => rfl
  | cons b bs ih =>
    simp only [bytesToBits_cons, List.length_append, List.length_cons, ih, byteToBits,
      List.length_cons]
    simp
    omega

theorem byteToBits_le_one (b : Nat) : ∀ x ∈ byteToBits b, x ≤ 1 := by
  intro x hx
  simp only [byteToBits, List.mem_cons, List.not_mem_nil, or_false] at hx
  rcases hx with h | h | h | h | h | h | h | h <;> subst h <;> exact Nat.and_le_right

theorem bytesToBits_le_one (l : Bytes) : ∀ x ∈ bytesToBits l, x ≤ 1 := by
  intro x hx
  induction l with
  | nil => simp [bytesToBits] at hx
  | cons b bs ih =>
    rw [bytesToBits_cons, List.mem_append] at hx
    rcases hx with h | h
    · exact byteToBits_le_one b x h
    · exact ih h

theorem bitsToBytes_cons8 (b0 b1 b2 b3 b4 b5 b6 b7 : Nat) (rest : List Nat) :
    bitsToBytes (b0 :: b1 :: b2 :: b3 :: b4 :: b5 :: b6 :: b7 :: rest) =
      (b0 + 2 * b1 + 4 * b2 + 8 * b3 + 16 * b4 + 32 * b5 + 64 * b6 + 128 * b7)
        :: bitsToBytes rest := by
  simp [bitsToBytes]

/-- Reassembling the eight little-endian bits of a byte gives the byte back. -/
theorem byteToBits_recompose (b : Nat) (h : b < 256) :
    (b &&& 1) + 2 * ((b >>> 1) &&& 1) + 4 * ((b >>> 2) &&& 1) + 8 * ((b >>> 3) &&& 1)
      + 16 * ((b >>> 4) &&& 1) + 32 * ((b >>> 5) &&& 1) + 64 * ((b >>> 6) &&& 1)
      + 128 * ((b >>> 7) &&& 1) = b := by
  simp only [Nat.and_one_is_mod, Nat.shiftRight_eq_div_pow]
  norm_num
  omega

theorem bitsToBytes_bytesToBits (p : Bytes) (h : ∀ b ∈ p, b < 256) :
    bitsToBytes (bytesToBits p) = p := by
  induction p with
  | nil => rfl
  | cons b bs ih =>
    rw [bytesToBits_cons]
    show bitsToBytes ((b &&& 1) :: ((b >>> 1) &&& 1) :: ((b >>> 2) &&& 1) :: ((b >>> 3) &&& 1)
      :: ((b >>> 4) &&& 1) :: ((b >>> 5) &&& 1) :: ((b >>> 6) &&& 1) :: ((b >>> 7) &&& 1)
      :: bytesToBits bs) = b :: bs
    rw [bitsToBytes_cons8, byteToBits_recompose b (h b (List.mem_cons_self b bs)),
      ih (fun x hx => h x (List.mem_cons_of_mem b hx))]

theorem bitsToBytes_append (m : Nat) (x y : List Nat) (hx : x.length = 8 * m) :
    bitsToBytes (x ++ y) = bitsToBytes x ++ bitsToBytes y := by
  induction m generalizing x with
  | zero =>
    rw [List.eq_nil_of_length_eq_zero (by omega : x.length = 0)]
    rfl
  | succ t ih =>
    rcases x with _ | ⟨b0, x⟩; · simp at hx
    rcases x with _ | ⟨b1, x⟩; · simp at hx; omega
    rcases x with _ | ⟨b2, x⟩; · simp at hx; omega
    rcases x with _ | ⟨b3, x⟩; · simp at hx; omega
    rcases x with _ | ⟨b4, x⟩; · simp at hx; omega
    rcases x with _ | ⟨b5, x⟩; · simp at hx; omega
    rcases x with _ | ⟨b6, x⟩; · simp at hx; omega
    rcases x with _ | ⟨b7, x⟩; · simp at hx; omega
    simp only [List.cons_append, bitsToBytes_cons8, List.cons.injEq, true_and]
    exact ih x (by simp at hx; omega)

theorem bitsToBytes_length (m : Nat) (x : List Nat) (hx : x.length = 8 * m) :
    (bitsToBytes x).length = m := by
  induction m generalizing x with
  | zero =>
    rw [List.eq_nil_of_length_eq_zero (by omega : x.length = 0)]
    rfl
  | succ t ih =>
    rcases x with _ | ⟨b0, x⟩; · simp at hx
    rcases x with _ | ⟨b1, x⟩; · simp at hx; omega
    rcases x with _ | ⟨b2, x⟩; · simp at hx; omega
    rcases x with _ | ⟨b3, x⟩; · simp at hx; omega
    rcases x with _ | ⟨b4, x⟩; · simp at hx; omega
    rcases x with _ | ⟨b5, x⟩; · simp at hx; omega
    rcases x with _ | ⟨b6, x⟩; · simp at hx; omega
    rcases x with _ | ⟨b7, x⟩; · simp at hx; omega
    rw [bitsToBytes_cons8]
    simp only [List.length_cons]
    rw [ih x (by simp at hx; omega)]

theorem bytesToBits_bitsToBytes (m : Nat) (x : List Nat) (hx : x.length = 8 * m)
    (hb : ∀ b ∈ x, b ≤ 1) : bytesToBits (bitsToBytes x) = x := by
  induction m generalizing x with
  | zero =>
    rw [List.eq_nil_of_length_eq_zero (by omega : x.length = 0)]
    rfl
  | succ t ih =>
    rcases x with _ | ⟨b0, x⟩; · simp at hx
    rcases x with _ | ⟨b1, x⟩; · simp at hx; omega
    rcases x with _ | ⟨b2, x⟩; · simp at hx; omega
    rcases x with _ | ⟨b3, x⟩; · simp at hx; omega
    rcases x with _ | ⟨b4, x⟩; · simp at hx; omega
    rcases x with _ | ⟨b5, x⟩; · simp at hx; omega
    rcases x with _ | ⟨b6, x⟩; · simp at hx; omega
    rcases x with _ | ⟨b7, x⟩; · simp at hx; omega
    have h0 : b0 ≤ 1 := hb b0 (by simp)
    have h1 : b1 ≤ 1 := hb b1 (by simp)
    have h2 : b2 ≤ 1 := hb b2 (by simp)
    have h3 : b3 ≤ 1 := hb b3 (by simp)
    have h4 : b4 ≤ 1 := hb b4 (by simp)
    have h5 : b5 ≤ 1 := hb b5 (by simp)
    have h6 : b6 ≤ 1 := hb b6 (by simp)
    have h7 : b7 ≤ 1 := hb b7 (by simp)
    rw [bitsToBytes_cons8, bytesToBits_cons,
      ih x (by simp at hx; omega) (fun b hbm => hb b (by simp [hbm]))]
    simp only [byteToBits, Nat.and_one_is_mod, Nat.shiftRight_eq_div_pow, List.cons_append,
      List.nil_append, List.cons.injEq, and_true]
    norm_num
    omega

/-! Single-bit bounds for the keystream. -/

theorem getBit_le_one (s i : Nat) : getBit s i ≤ 1 := Nat.and_le_right

theorem xor_le_one (x y : Nat) (hx : x ≤ 1) (hy : y ≤ 1) : x ^^^ y ≤ 1 := by
  interval_cases x <;> interval_cases y <;> decide

theorem maj_le_one (x y z : Nat) (hx : x ≤ 1) (hy : y ≤ 1) (hz : z ≤ 1) : maj x y z ≤ 1 := by
  interval_cases x <;> interval_cases y <;> interval_cases z <;> decide

theorem ch_le_one (x y z : Nat) (hx : x ≤ 1) (hy : y ≤ 1) (hz : z ≤ 1) : ch x y z ≤ 1 := by
  interval_cases x <;> interval_cases y <;> interval_cases z <;> decide

theorem ksg_le_one (s : Nat) : ksg s ≤ 1 := by
  unfold ksg
  exact xor_le_one _ _
    (xor_le_one _ _ (xor_le_one _ _ (getBit_le_one s 12) (getBit_le_one s 154))
      (maj_le_one _ _ _ (getBit_le_one s 235) (getBit_le_one s 61) (getBit_le_one s 193)))
    (ch_le_one _ _ _ (getBit_le_one s 230) (getBit_le_one s 111) (getBit_le_one s 66))

theorem stepKS_le_one (s : Nat) : stepKS s ≤ 1 := ksg_le_one _

theorem encBits_le_one (s : Nat) (ps : List Nat) (h : ∀ p ∈ ps, p ≤ 1) :
    ∀ c ∈ (encBits s ps).2, c ≤ 1 := by
  induction ps generalizing s with
  | nil => simp [encBits]
  | cons p ps ih =>
    intro c hc
    rw [encBits_cons] at hc
    rcases List.mem_cons.mp hc with h1 | h1
    · subst h1
      exact xor_le_one _ _ (h p (by simp)) (stepKS_le_one s)
    · exact ih (stepS s p 1 0) (fun q hq => h q (by simp [hq])) c h1

/-- A tag always has exactly 16 bytes. -/
theorem tagOf_length (s : Nat) : (tagOf s).length = 16 :=
  bitsToBytes_length 16 _ (by rw [squeeze_length])

/-! Constant-time comparison. -/

theorem or_eq_zero_iff (x y : Nat) : x ||| y = 0 ↔ x = 0 ∧ y = 0 := by
  constructor
  · intro h
    constructor <;> apply Nat.eq_of_testBit_eq <;> intro i
    · have hb := congrArg (fun t => Nat.testBit t i) h
      simp only [Nat.testBit_or] at hb
      simp only [Nat.zero_testBit]
      exact (Bool.or_eq_false_iff.mp (by simpa using hb)).1
    · have hb := congrArg (fun t => Nat.testBit t i) h
      simp only [Nat.testBit_or] at hb
      simp only [Nat.zero_testBit]
      exact (Bool.or_eq_false_iff.mp (by simpa using hb)).2
  · rintro ⟨rfl, rfl⟩
    rfl

theorem ctDiff_eq_zero_iff (a b : Bytes) (h : a.length = b.length) :
    Acorn128.ctDiff a b = 0 ↔ a = b := by
  induction a generalizing b with
  | nil =>
    rcases b with _ | ⟨y, b⟩
    · simp [Acorn128.ctDiff]
    · simp at h
  | cons x a ih =>
    rcases b with _ | ⟨y, b⟩
    · simp at h
    · simp only [Acorn128.ctDiff, or_eq_zero_iff, Nat.xor_eq_zero, List.cons.injEq]
      rw [ih b (by simpa using h)]

theorem ctCost_eq_min (a b : Bytes) : Acorn128.ctCost a b = min a.length b.length := by
  induction a generalizing b with
  | nil => rcases b with _ | ⟨y, b⟩ <;> simp [Acorn128.ctCost]
  | cons x a ih =>
    rcases b with _ | ⟨y, b⟩
    · simp [Acorn128.ctCost]
    · simp only [Acorn128.ctCost, ih, List.length_cons]
      omega

theorem decBits_append (x y : List Nat) (s : Nat) :
    decBits s (x ++ y) =
      ((decBits (decBits s x).1 y).1, (decBits s x).2 ++ (decBits (decBits s x).1 y).2) := by
  induction x generalizing s with
  | nil => simp [decBits]
  | cons c cs ih => simp [decBits_cons, ih]

theorem decBits_length (s : Nat) (cs : List Nat) : (decBits s cs).2.length = cs.length := by
  induction cs generalizing s with
  | nil => simp [decBits]
  | cons c cs ih => simp [decBits_cons, ih]

/-! Session lemmas. -/

namespace Acorn128

theorem prePayload_of_not_payload (s : Acorn128) (h : s.phase ≠ .Payload) :
    s.prePayload = padAD s.st := by
  simp [prePayload, h]

theorem computeTag_ok (s : Acorn128) (hr : s.ready = true) (hph : s.phase ≠ .Finalized) :
    s.computeTag = (.ok (tagOf (padPL s.prePayload)),
      { s with phase := .Finalized, st := padPL s.prePayload,
               tag? := some (tagOf (padPL s.prePayload)) }) := by
  simp [computeTag, hr, hph]

theorem checkTag_not_final (s : Acorn128) (c : Bytes) (hr : s.ready = true)
    (hph : s.phase ≠ .Finalized) (ht : s.tag? = none) (hc : c.length = 16) :
    s.checkTag c =
      (if ctDiff (tagOf (padPL s.prePayload)) c = 0 then .ok () else .error .TagMismatch,
       (s.computeTag).2) := by
  rw [checkTag, computeTag_ok s hr hph]
  simp only [ht]
  rw [if_neg (by simp [hc] : ¬c.length ≠ 16)]
  split <;> rfl

end Acorn128

theorem addAuthChunks_ok (as : List Bytes) (s : Acorn128) (hr : s.ready = true)
    (hph : s.phase = .Setup ∨ s.phase = .AuthData) :
    ∃ s', addAuthChunks s as = (.ok (), s') ∧ s'.key? = s.key? ∧ s'.iv? = s.iv? ∧
      s'.tag? = s.tag? ∧ s'.ready = true ∧ (s'.phase = .Setup ∨ s'.phase = .AuthData) ∧
      s'.st = absorb 1 1 s.st (bytesToBits as.flatten) := by
  induction as generalizing s with
  | nil => exact ⟨s, rfl, rfl, rfl, rfl, hr, hph, rfl⟩
  | cons a as ih =>
    have hnotp : ¬(s.phase = .Payload ∨ s.phase = .Finalized) := by
      rcases hph with h | h <;> simp [h]
    have hstep : s.addAuthData a =
        (.ok (), { s with phase := .AuthData, st := absorb 1 1 s.st (bytesToBits a) }) := by
      simp [Acorn128.addAuthData, hr, hnotp]
    obtain ⟨s', he, hk, hi, htg, hr', hph', hst⟩ :=
      ih { s with phase := .AuthData, st := absorb 1 1 s.st (bytesToBits a) } hr (Or.inr rfl)
    refine ⟨s', ?_, hk, hi, htg, hr', hph', ?_⟩
    · simp [addAuthChunks, hstep, he]
    · rw [hst]
      show absorb 1 1 (absorb 1 1 s.st (bytesToBits a)) (bytesToBits as.flatten) = _
      rw [← absorb_append, ← bytesToBits_append, List.flatten_cons]

theorem encryptChunks_ok (ps : List Bytes) (s : Acorn128) (hr : s.ready = true)
    (hph : s.phase ≠ .Finalized) :
    ∃ s', encryptChunks s ps =
        (.ok (bitsToBytes (encBits s.prePayload (bytesToBits ps.flatten)).2), s') ∧
      s'.key? = s.key? ∧ s'.iv? = s.iv? ∧ s'.tag? = s.tag? ∧ s'.ready = true ∧
      s'.phase ≠ .Finalized ∧
      s'.prePayload = (encBits s.prePayload (bytesToBits ps.flatten)).1 := by
  induction ps generalizing s with
  | nil => exact ⟨s, rfl, rfl, rfl, rfl, hr, hph, rfl⟩
  | cons p ps ih =>
    have hstep : s.encrypt p = (.ok (bitsToBytes (encBits s.prePayload (bytesToBits p)).2),
        { s with phase := .Payload, st := (encBits s.prePayload (bytesToBits p)).1 }) := by
      simp [Acorn128.encrypt, hr, hph]
    obtain ⟨s', he, hk, hi, htg, hr', hph', hpre⟩ :=
      ih { s with phase := .Payload, st := (encBits s.prePayload (bytesToBits p)).1 } hr
        (by simp)
    have hpre1 : Acorn128.prePayload
        (Acorn128.mk s.key? s.iv? Phase.Payload (encBits s.prePayload (bytesToBits p)).1 s.tag?) =
        (encBits s.prePayload (bytesToBits p)).1 := rfl
    rw [hpre1] at he hpre
    refine ⟨s', ?_, hk, hi, htg, hr', hph', ?_⟩
    · simp only [encryptChunks, hstep, he]
      have hflat : (p :: ps).flatten = p ++ ps.flatten := List.flatten_cons
      rw [hflat, bytesToBits_append, encBits_append,
        bitsToBytes_append p.length _ _ (by rw [encBits_length, bytesToBits_length])]
    · rw [hpre, List.flatten_cons, bytesToBits_append, encBits_append]

theorem decryptChunks_ok (cs : List Bytes) (s : Acorn128) (hr : s.ready = true)
    (hph : s.phase ≠ .Finalized) :
    ∃ s', decryptChunks s cs =
        (.ok (bitsToBytes (decBits s.prePayload (bytesToBits cs.flatten)).2), s') ∧
      s'.key? = s.key? ∧ s'.iv? = s.iv? ∧ s'.tag? = s.tag? ∧ s'.ready = true ∧
      s'.phase ≠ .Finalized ∧
      s'.prePayload = (decBits s.prePayload (bytesToBits cs.flatten)).1 := by
  induction cs generalizing s with
  | nil => exact ⟨s, rfl, rfl, rfl, rfl, hr, hph, rfl⟩
  | cons c cs ih =>
    have hstep : s.decrypt c = (.ok (bitsToBytes (decBits s.prePayload (bytesToBits c)).2),
        { s with phase := .Payload, st := (decBits s.prePayload (bytesToBits c)).1 }) := by
      simp [Acorn128.decrypt, hr, hph]
    obtain ⟨s', he, hk, hi, htg, hr', hph', hpre⟩ :=
      ih { s with phase := .Payload, st := (decBits s.prePayload (bytesToBits c)).1 } hr
        (by simp)
    have hpre1 : Acorn128.prePayload
        (Acorn128.mk s.key? s.iv? Phase.Payload (decBits s.prePayload (bytesToBits c)).1 s.tag?) =
        (decBits s.prePayload (bytesToBits c)).1 := rfl
    rw [hpre1] at he hpre
    refine ⟨s', ?_, hk, hi, htg, hr', hph', ?_⟩
    · simp only [decryptChunks, hstep, he]
      have hflat : (c :: cs).flatten = c ++ cs.flatten := List.flatten_cons
      rw [hflat, bytesToBits_append, decBits_append,
        bitsToBytes_append c.length _ _ (by rw [decBits_length, bytesToBits_length])]
    · rw [hpre, List.flatten_cons, bytesToBits_append, decBits_append]

theorem startSession_ok (k n : Bytes) (aCs : List Bytes) (hk : k.length = 16)
    (hn : n.length = 16) :
    ∃ s, startSession k n aCs = (.ok (), s) ∧ s.key? = some k ∧ s.iv? = some n ∧
      s.tag? = none ∧ s.ready = true ∧ (s.phase = .Setup ∨ s.phase = .AuthData) ∧
      s.st = absorb 1 1 (initState k n) (bytesToBits aCs.flatten) := by
  have h1 : (Acorn128.new.clear).setKey k =
      (.ok (), ⟨some k, none, .Setup, 0, none⟩) := by
    simp [Acorn128.clear, Acorn128.new, Acorn128.setKey, hk, Acorn128.deriveSt]
  have h2 : (⟨some k, none, .Setup, 0, none⟩ : Acorn128).setIV n =
      (.ok (), ⟨some k, some n, .Setup, initState k n, none⟩) := by
    simp [Acorn128.setIV, hn, Acorn128.deriveSt]
  obtain ⟨s', he, hk', hi', ht', hr', hph', hst'⟩ :=
    addAuthChunks_ok aCs ⟨some k, some n, .Setup, initState k n, none⟩ rfl (Or.inl rfl)
  exact ⟨s', by simp [startSession, h1, h2, he], hk', hi', ht', hr', hph', hst'⟩

/-! Whole-operation lemmas. -/

theorem runEncrypt_eq (k n : Bytes) (aCs pCs : List Bytes) (hk : k.length = 16)
    (hn : n.length = 16) :
    runEncrypt k n aCs pCs = .ok
      (bitsToBytes (encBits (padAD (absorb 1 1 (initState k n) (bytesToBits aCs.flatten)))
          (bytesToBits pCs.flatten)).2,
       tagOf (padPL (encBits (padAD (absorb 1 1 (initState k n) (bytesToBits aCs.flatten)))
          (bytesToBits pCs.flatten)).1)) := by
  obtain ⟨s0, he0, hk0, hi0, ht0, hr0, hph0, hst0⟩ := startSession_ok k n aCs hk hn
  have hph0f : s0.phase ≠ .Finalized := by rcases hph0 with h | h <;> simp [h]
  have hph0p : s0.phase ≠ .Payload := by rcases hph0 with h | h <;> simp [h]
  obtain ⟨s1, he1, hk1, hi1, ht1, hr1, hph1, hpre1⟩ := encryptChunks_ok pCs s0 hr0 hph0f
  rw [Acorn128.prePayload_of_not_payload s0 hph0p, hst0] at he1 hpre1
  simp only [runEncrypt, he0, he1, Acorn128.computeTag_ok s1 hr1 hph1, hpre1]

theorem runDecrypt_eq (k n : Bytes) (aCs cCs : List Bytes) (hk : k.length = 16)
    (hn : n.length = 16) :
    runDecrypt k n aCs cCs = .ok
      (bitsToBytes (decBits (padAD (absorb 1 1 (initState k n) (bytesToBits aCs.flatten)))
          (bytesToBits cCs.flatten)).2,
       tagOf (padPL (decBits (padAD (absorb 1 1 (initState k n) (bytesToBits aCs.flatten)))
          (bytesToBits cCs.flatten)).1)) := by
  obtain ⟨s0, he0, hk0, hi0, ht0, hr0, hph0, hst0⟩ := startSession_ok k n aCs hk hn
  have hph0f : s0.phase ≠ .Finalized := by rcases hph0 with h | h <;> simp [h]
  have hph0p : s0.phase ≠ .Payload := by rcases hph0 with h | h <;> simp [h]
  obtain ⟨s1, he1, hk1, hi1, ht1, hr1, hph1, hpre1⟩ := decryptChunks_ok cCs s0 hr0 hph0f
  rw [Acorn128.prePayload_of_not_payload s0 hph0p, hst0] at he1 hpre1
  simp only [runDecrypt, he0, he1, Acorn128.computeTag_ok s1 hr1 hph1, hpre1]

theorem runDecryptCheck_eq (k n : Bytes) (aCs cCs : List Bytes) (cand : Bytes)
    (hk : k.length = 16) (hn : n.length = 16) (hc : cand.length = 16) :
    runDecryptCheck k n aCs cCs cand =
      if Acorn128.ctDiff (tagOf (padPL (decBits (padAD (absorb 1 1 (initState k n)
            (bytesToBits aCs.flatten))) (bytesToBits cCs.flatten)).1)) cand = 0
        then .ok () else .error .TagMismatch := by
  obtain ⟨s0, he0, hk0, hi0, ht0, hr0, hph0, hst0⟩ := startSession_ok k n aCs hk hn
  have hph0f : s0.phase ≠ .Finalized := by rcases hph0 with h | h <;> simp [h]
  have hph0p : s0.phase ≠ .Payload := by rcases hph0 with h | h <;> simp [h]
  obtain ⟨s1, he1, hk1, hi1, ht1, hr1, hph1, hpre1⟩ := decryptChunks_ok cCs s0 hr0 hph0f
  rw [Acorn128.prePayload_of_not_payload s0 hph0p, hst0] at he1 hpre1
  rw [ht0] at ht1
  have hchk := Acorn128.checkTag_not_final s1 cand hr1 hph1 ht1 hc
  rw [hpre1] at hchk
  simp only [runDecryptCheck, he0, he1, hchk]

/-- C1: round trip with arbitrary chunkings of the associated data, the
payload and the ciphertext. -/
theorem c1_round_trip (k n : Bytes) (aCs aCs' pCs : List Bytes)
    (hk : k.length = 16) (hn : n.length = 16)
    (_hA : aCs.flatten.length ≤ 1000) (_hP : pCs.flatten.length ≤ 1000)
    (hPv : ∀ b ∈ pCs.flatten, b < 256) (hA' : aCs'.flatten = aCs.flatten) :
    (∃ c t, runEncrypt k n aCs pCs = .ok (c, t)) ∧
    (∀ c t cCs, runEncrypt k n aCs pCs = .ok (c, t) → cCs.flatten = c →
      runDecrypt k n aCs' cCs = .ok (pCs.flatten, t)) := by
  have hE := runEncrypt_eq k n aCs pCs hk hn
  refine ⟨⟨_, _, hE⟩, ?_⟩
  intro c t cCs hok hflat
  rw [hE] at hok
  simp only [Except.ok.injEq, Prod.mk.injEq] at hok
  obtain ⟨hc, ht⟩ := hok
  subst hc
  subst ht
  rw [runDecrypt_eq k n aCs' cCs hk hn, hA', hflat,
    bytesToBits_bitsToBytes pCs.flatten.length _
      (by rw [encBits_length, bytesToBits_length])
      (encBits_le_one _ _ (bytesToBits_le_one _)),
    decBits_encBits]
  simp only []
  rw [bitsToBytes_bytesToBits pCs.flatten hPv]

/-- C3: encrypting the payload in one call and byte by byte produce the same
ciphertext and the same tag. -/
theorem c3_chunk_independence (k n : Bytes) (aCs : List Bytes) (p : Bytes)
    (hk : k.length = 16) (hn : n.length = 16) :
    runEncrypt k n aCs [p] = runEncrypt k n aCs (p.map fun b => [b]) := by
  rw [runEncrypt_eq k n aCs [p] hk hn, runEncrypt_eq k n aCs (p.map fun b => [b]) hk hn]
  have h1 : ([p] : List Bytes).flatten = p := by simp
  have h2 : (p.map fun b => [b]).flatten = p := by
    induction p with
    | nil => rfl
    | cons b bs ih => simp_all
  rw [h1, h2]

/-- C4: on a session with key and nonce set and not yet finalized, verifying
the tag that computeTag returns for that same session succeeds, and
verifying any other 16-byte candidate fails with TagMismatch. -/
theorem c4_verify_symmetry (s : Acorn128) (hr : s.ready = true)
    (hph : s.phase ≠ .Finalized) (ht : s.tag? = none) :
    ∀ t s', s.computeTag = (.ok t, s') →
      (s.checkTag t).1 = .ok () ∧
      ∀ c, c.length = 16 → c ≠ t → (s.checkTag c).1 = .error .TagMismatch := by
  intro t s' hct
  rw [Acorn128.computeTag_ok s hr hph] at hct
  simp only [Prod.mk.injEq, Except.ok.injEq] at hct
  obtain ⟨h1, h2⟩ := hct
  subst h1
  constructor
  · rw [Acorn128.checkTag_not_final s _ hr hph ht (tagOf_length _)]
    simp [ctDiff_eq_zero_iff _ _ rfl]
  · intro c hc hne
    rw [Acorn128.checkTag_not_final s c hr hph ht hc]
    have hlen : (tagOf (padPL s.prePayload)).length = c.length := by rw [tagOf_length, hc]
    have hno : ¬(Acorn128.ctDiff (tagOf (padPL s.prePayload)) c = 0) := by
      rw [ctDiff_eq_zero_iff _ _ hlen]
      exact fun h => hne h.symm
    simp [hno]

/-- C5: the tag comparison always performs exactly 16 byte comparisons, no
matter where the first mismatch is, and a 16-byte candidate on a live
session yields either success or TagMismatch, nothing else. -/
theorem c5_constant_time (a b : Bytes) (s : Acorn128) (c : Bytes)
    (ha : a.length = 16) (hb : b.length = 16)
    (hr : s.ready = true) (hph : s.phase ≠ .Finalized) (ht : s.tag? = none)
    (hc : c.length = 16) :
    Acorn128.ctCost a b = 16 ∧
    ((s.checkTag c).1 = .ok () ∨ (s.checkTag c).1 = .error .TagMismatch) := by
  constructor
  · rw [ctCost_eq_min, ha, hb]
    simp
  · rw [Acorn128.checkTag_not_final s c hr hph ht hc]
    by_cases hd : Acorn128.ctDiff (tagOf (padPL s.prePayload)) c = 0
    · left
      simp [hd]
    · right
      simp [hd]

/-- C6: before both key and nonce have been supplied since the last reset,
every encrypt or decrypt call fails with InvalidState and leaves the
session unchanged. -/
theorem c6_requires_key_and_nonce (s : Acorn128) (h : s.ready = false) (p c : Bytes) :
    s.encrypt p = (.error .InvalidState, s) ∧ s.decrypt c = (.error .InvalidState, s) := by
  constructor <;> simp [Acorn128.encrypt, Acorn128.decrypt, h]

/-- C7: setKey and setIV reject any argument that is not exactly 16 bytes
with InvalidLength, leaving the session unchanged, and succeed on a 16-byte
argument in the setup phase. -/
theorem c7_length_validation (s : Acorn128) (k : Bytes) :
    (k.length ≠ 16 → s.setKey k = (.error .InvalidLength, s) ∧
      s.setIV k = (.error .InvalidLength, s)) ∧
    (k.length = 16 → s.phase = .Setup →
      (s.setKey k).1 = .ok () ∧ (s.setIV k).1 = .ok ()) := by
  constructor
  · intro h
    constructor <;> simp [Acorn128.setKey, Acorn128.setIV, h]
  · intro h hph
    constructor <;> simp [Acorn128.setKey, Acorn128.setIV, h, hph]

/-- C8: a successful encrypt or decrypt call returns exactly one output byte
per input byte. -/
theorem c8_length_preserved (s : Acorn128) (p c out1 out2 : Bytes) :
    ((s.encrypt p).1 = .ok out1 → out1.length = p.length) ∧
    ((s.decrypt c).1 = .ok out2 → out2.length = c.length) := by
  constructor
  · intro h
    unfold Acorn128.encrypt at h
    by_cases hcond : s.ready = false ∨ s.phase = .Finalized
    · rw [if_pos hcond] at h
      simp at h
    · rw [if_neg hcond] at h
      have hout : bitsToBytes (encBits s.prePayload (bytesToBits p)).2 = out1 := by
        simpa using h
      rw [← hout,
        bitsToBytes_length p.length _ (by rw [encBits_length, bytesToBits_length])]
  · intro h
    unfold Acorn128.decrypt at h
    by_cases hcond : s.ready = false ∨ s.phase = .Finalized
    · rw [if_pos hcond] at h
      simp at h
    · rw [if_neg hcond] at h
      have hout : bitsToBytes (decBits s.prePayload (bytesToBits c)).2 = out2 := by
        simpa using h
      rw [← hout,
        bitsToBytes_length c.length _ (by rw [decBits_length, bytesToBits_length])]

/-- C10: checkTag called on a session that has not been finalized finalizes
it itself: it succeeds exactly when the candidate equals the tag computeTag
would return, and it leaves the session in the state computeTag would leave
it in. -/
theorem c10_check_finalizes (s : Acorn128) (c : Bytes) (hr : s.ready = true)
    (hph : s.phase ≠ .Finalized) (ht : s.tag? = none) (hc : c.length = 16) :
    ∀ t s', s.computeTag = (.ok t, s') →
      (((s.checkTag c).1 = .ok () ↔ c = t) ∧ (s.checkTag c).2 = s') := by
  intro t s' hct
  have hforms := Acorn128.computeTag_ok s hr hph
  rw [hforms] at hct
  simp only [Prod.mk.injEq, Except.ok.injEq] at hct
  obtain ⟨h1, h2⟩ := hct
  subst h1
  have hchk := Acorn128.checkTag_not_final s c hr hph ht hc
  have hlen : (tagOf (padPL s.prePayload)).length = c.length := by rw [tagOf_length, hc]
  constructor
  · by_cases hd : Acorn128.ctDiff (tagOf (padPL s.prePayload)) c = 0
    · have heq : tagOf (padPL s.prePayload) = c := (ctDiff_eq_zero_iff _ _ hlen).mp hd
      exact iff_of_true (by rw [hchk]; simp [hd]) heq.symm
    · have hne : ¬(tagOf (padPL s.prePayload) = c) :=
        fun h => hd ((ctDiff_eq_zero_iff _ _ hlen).mpr h)
      exact iff_of_false (by rw [hchk]; simp [hd]) (fun h => hne h.symm)
  · rw [hchk, hforms]
    exact h2

/-- C9: a second setKey before any data processing overrides the first (the
session is exactly the one keyed with the second value), and consequently a
tag produced under the first key fails verification with TagMismatch
whenever the two keys lead to different tags. -/
theorem c9_last_write_wins (k1 k2 n : Bytes) (s : Acorn128) (aCs pCs : List Bytes)
    (t1 t2 : Bytes) (h1 : k1.length = 16) (h2 : k2.length = 16) (hn : n.length = 16)
    (hph : s.phase = .Setup)
    (e1 : runTag k1 n aCs pCs = some t1) (e2 : runTag k2 n aCs pCs = some t2)
    (hne : t1 ≠ t2) :
    (s.setKey k1).2.setKey k2 = s.setKey k2 ∧
    runTwiceKeyedCheck k1 k2 n aCs pCs t1 = .error .TagMismatch := by
  rw [runTag, runEncrypt_eq k1 n aCs pCs h1 hn] at e1
  rw [runTag, runEncrypt_eq k2 n aCs pCs h2 hn] at e2
  simp only [Option.some.injEq] at e1 e2
  constructor
  · simp [Acorn128.setKey, h1, h2, hph]
  · have s1eq : (Acorn128.new.clear).setKey k1 =
        (.ok (), ⟨some k1, none, .Setup, 0, none⟩) := by
      simp [Acorn128.clear, Acorn128.new, Acorn128.setKey, h1, Acorn128.deriveSt]
    have s2eq : (⟨some k1, none, .Setup, 0, none⟩ : Acorn128).setKey k2 =
        (.ok (), ⟨some k2, none, .Setup, 0, none⟩) := by
      simp [Acorn128.setKey, h2, Acorn128.deriveSt]
    have s3eq : (⟨some k2, none, .Setup, 0, none⟩ : Acorn128).setIV n =
        (.ok (), ⟨some k2, some n, .Setup, initState k2 n, none⟩) := by
      simp [Acorn128.setIV, hn, Acorn128.deriveSt]
    obtain ⟨s4, he4, hk4, hi4, ht4, hr4, hph4, hst4⟩ :=
      addAuthChunks_ok aCs ⟨some k2, some n, .Setup, initState k2 n, none⟩ rfl (Or.inl rfl)
    have hph4f : s4.phase ≠ .Finalized := by rcases hph4 with h | h <;> simp [h]
    have hph4p : s4.phase ≠ .Payload := by rcases hph4 with h | h <;> simp [h]
    obtain ⟨s5, he5, hk5, hi5, ht5, hr5, hph5, hpre5⟩ := encryptChunks_ok pCs s4 hr4 hph4f
    rw [Acorn128.prePayload_of_not_payload s4 hph4p, hst4] at he5 hpre5
    have ht5' : s5.tag? = none := by rw [ht5, ht4]
    have ht1len : t1.length = 16 := by rw [← e1, tagOf_length]
    have hchk := Acorn128.checkTag_not_final s5 t1 hr5 hph5 ht5' ht1len
    rw [hpre5] at hchk
    have hlen : (tagOf (padPL (encBits (padAD (absorb 1 1 (initState k2 n)
        (bytesToBits aCs.flatten))) (bytesToBits pCs.flatten)).1)).length = t1.length := by
      rw [tagOf_length, ht1len]
    have hno : ¬(Acorn128.ctDiff (tagOf (padPL (encBits (padAD (absorb 1 1 (initState k2 n)
        (bytesToBits aCs.flatten))) (bytesToBits pCs.flatten)).1)) t1 = 0) := by
      rw [ctDiff_eq_zero_iff _ _ hlen, e2]
      exact fun h => hne h.symm
    simp only [runTwiceKeyedCheck, s1eq, s2eq, s3eq, he4, he5, hchk]
    simp [hno]

set_option maxRecDepth 1000000

set_option maxHeartbeats 0

/-- C2 (counterexample): with the 16-byte ciphertext that the specification
text lists for the known-answer vector, decryption does not verify: the tag
over the truncated ciphertext differs from the listed tag, so checkTag
fails with TagMismatch. -/
theorem c2_truncated_vector_fails :
    runDecryptCheck katKey katIV [katHeader] [katCiphertext16] katTag =
      .error .TagMismatch := by
  decide

/-- C2 (amended): decrypting the full 24-byte known-answer ciphertext of the
test driver under the listed key, nonce and header yields the original
plaintext and the listed tag, and verifying that tag succeeds. -/
theorem c2_known_answer_vector :
    runDecrypt katKey katIV [katHeader] [katCiphertext] = .ok (katPlaintext, katTag) ∧
    runDecryptCheck katKey katIV [katHeader] [katCiphertext] katTag = .ok () := by
  have h : runDecrypt katKey katIV [katHeader] [katCiphertext] =
      .ok (katPlaintext, katTag) := by
    decide
  refine ⟨h, ?_⟩
  rw [runDecryptCheck_eq katKey katIV [katHeader] [katCiphertext] katTag (by decide)
    (by decide) (by decide)]
  rw [runDecrypt_eq katKey katIV [katHeader] [katCiphertext] (by decide) (by decide)] at h
  simp only [Except.ok.injEq, Prod.mk.injEq] at h
  rw [h.2]
  rw [if_pos (show Acorn128.ctDiff katTag katTag = 0 by decide)]

/-- Witness for C1 at a concrete key, nonce, header and payload chunking. -/
theorem c1_round_trip_witness :
    (∃ c t, runEncrypt katKey katIV [katHeader] [[65, 66]] = .ok (c, t)) ∧
    (∀ c t cCs, runEncrypt katKey katIV [katHeader] [[65, 66]] = .ok (c, t) →
      cCs.flatten = c →
      runDecrypt katKey katIV [katHeader] cCs =
        .ok (([[65, 66]] : List Bytes).flatten, t)) :=
  c1_round_trip katKey katIV [katHeader] [katHeader] [[65, 66]] (by decide) (by decide)
    (by decide) (by decide) (by decide) rfl

/-- Witness for C3 at a concrete key, nonce, header and payload. -/
theorem c3_chunk_independence_witness :
    runEncrypt katKey katIV [katHeader] [[1, 2, 3]] =
      runEncrypt katKey katIV [katHeader] (([1, 2, 3] : Bytes).map fun b => [b]) :=
  c3_chunk_independence katKey katIV [katHeader] [1, 2, 3] (by decide) (by decide)

/-- Witness for C4 at a concrete live session, its tag and its finalized
session evaluated to literals. -/
theorem c4_verify_symmetry_witness :
    ((Acorn128.mk (some katKey) (some katIV) Phase.Payload 0 none).checkTag
        [53, 213, 240, 24, 81, 225, 143, 143, 144, 42, 56, 39, 233, 62, 124, 197]).1 =
      .ok () ∧
    ∀ c, c.length = 16 →
      c ≠ [53, 213, 240, 24, 81, 225, 143, 143, 144, 42, 56, 39, 233, 62, 124, 197] →
      ((Acorn128.mk (some katKey) (some katIV) Phase.Payload 0 none).checkTag c).1 =
        .error .TagMismatch :=
  c4_verify_symmetry (Acorn128.mk (some katKey) (some katIV) Phase.Payload 0 none) rfl
    (by decide) rfl
    [53, 213, 240, 24, 81, 225, 143, 143, 144, 42, 56, 39, 233, 62, 124, 197]
    (Acorn128.mk (some katKey) (some katIV) Phase.Finalized
      14570960321521159451498750942714106965895056100713306169443649467254472660305887874777088
      (some [53, 213, 240, 24, 81, 225, 143, 143, 144, 42, 56, 39, 233, 62, 124, 197]))
    (by decide)

/-- Witness for C5 at concrete tags and a concrete live session. -/
theorem c5_constant_time_witness :
    Acorn128.ctCost katTag katKey = 16 ∧
    (((Acorn128.mk (some katKey) (some katIV) Phase.Payload 0 none).checkTag katTag).1 =
        .ok () ∨
     ((Acorn128.mk (some katKey) (some katIV) Phase.Payload 0 none).checkTag katTag).1 =
        .error .TagMismatch) :=
  c5_constant_time katTag katKey
    (Acorn128.mk (some katKey) (some katIV) Phase.Payload 0 none) katTag
    (by decide) (by decide) rfl (by decide) rfl (by decide)

/-- Witness for C6 on the fresh session. -/
theorem c6_requires_key_and_nonce_witness :
    Acorn128.new.encrypt [1] = (.error .InvalidState, Acorn128.new) ∧
    Acorn128.new.decrypt [2] = (.error .InvalidState, Acorn128.new) :=
  c6_requires_key_and_nonce Acorn128.new rfl [1] [2]

/-- Witness for C7 with a 3-byte and a 16-byte argument. -/
theorem c7_length_validation_witness :
    (Acorn128.new.setKey [1, 2, 3] = (.error .InvalidLength, Acorn128.new) ∧
     Acorn128.new.setIV [1, 2, 3] = (.error .InvalidLength, Acorn128.new)) ∧
    ((Acorn128.new.setKey katKey).1 = .ok () ∧ (Acorn128.new.setIV katKey).1 = .ok ()) :=
  ⟨(c7_length_validation Acorn128.new [1, 2, 3]).1 (by decide),
   (c7_length_validation Acorn128.new katKey).2 (by decide) rfl⟩

/-- Witness for C8 on a concrete session and 3-byte chunk. -/
theorem c8_length_preserved_witness :
    ((Acorn128.mk (some katKey) (some katIV) Phase.Payload
        12345678901234567890123456789 none).encrypt [1, 2, 3]).1 = .ok [85, 231, 236] ∧
    ([85, 231, 236] : Bytes).length = ([1, 2, 3] : Bytes).length :=
  ⟨by decide,
   (c8_length_preserved (Acorn128.mk (some katKey) (some katIV) Phase.Payload
      12345678901234567890123456789 none) [1, 2, 3] [1] [85, 231, 236] [1]).1 (by decide)⟩

/-- Witness for C9: under the known-answer nonce, the empty-data tags for the
known-answer key and for the nonce reused as key differ, and the first tag
fails on the session keyed twice. -/
theorem c9_last_write_wins_witness :
    ((Acorn128.new.setKey katKey).2.setKey katIV = Acorn128.new.setKey katIV) ∧
    runTwiceKeyedCheck katKey katIV katIV [] []
      [175, 151, 85, 116, 80, 112, 152, 71, 3, 86, 236, 145, 244, 171, 113, 197] =
      .error .TagMismatch :=
  c9_last_write_wins katKey katIV katIV Acorn128.new [] []
    [175, 151, 85, 116, 80, 112, 152, 71, 3, 86, 236, 145, 244, 171, 113, 197]
    [227, 17, 213, 3, 238, 193, 145, 3, 200, 174, 106, 196, 205, 170, 156, 63]
    (by decide) (by decide) (by decide) rfl (by decide) (by decide) (by decide)

/-- Witness for C10 at a concrete session and candidate, the tag and the
finalized session evaluated to literals. -/
theorem c10_check_finalizes_witness :
    ((((Acorn128.mk (some katKey) (some katIV) Phase.AuthData 5 none).checkTag
        katTag).1 = .ok () ↔
      katTag = [205, 88, 107, 79, 186, 253, 67, 105, 176, 89, 169, 191, 10, 96, 243, 192]) ∧
     ((Acorn128.mk (some katKey) (some katIV) Phase.AuthData 5 none).checkTag
        katTag).2 =
       Acorn128.mk (some katKey) (some katIV) Phase.Finalized
         1306247653679343057153320278814461134088203674236118768132010850445682446831416704583582
         (some [205, 88, 107, 79, 186, 253, 67, 105, 176, 89, 169, 191, 10, 96, 243, 192])) :=
  c10_check_finalizes (Acorn128.mk (some katKey) (some katIV) Phase.AuthData 5 none)
    katTag rfl (by decide) rfl (by decide)
    [205, 88, 107, 79, 186, 253, 67, 105, 176, 89, 169, 191, 10, 96, 243, 192]
    (Acorn128.mk (some katKey) (some katIV) Phase.Finalized
      1306247653679343057153320278814461134088203674236118768132010850445682446831416704583582
      (some [205, 88, 107, 79, 186, 253, 67, 105, 176, 89, 169, 191, 10, 96, 243, 192]))
    (by decide)

end CryptoLW
